import Mathlib

/-!
Verification of the `shopkick/jenkins` package.

The repository ships only packaging metadata (`setup.py`) that builds a C
extension module from `jenkins.c`, a binding to Bob Jenkins hash functions.
The algorithmic source `jenkins.c` is absent from the repository, so the
hash core below is modelled from the spec: a Jenkins lookup3-style mixing
hash (`hashlittle` / `hashlittle2`) over byte sequences, with three 32-bit
accumulators initialised from the constant 0xdeadbeef combined with the
input length and the seed, 12-byte blocks, the documented mix and final
rounds, and all arithmetic wrapping modulo 2^32.

Bytes are modelled as natural numbers taken modulo 256 (the uint8 domain);
32-bit words are natural numbers kept below `M32 = 2^32` by wrapping every
operation.
-/

namespace Jenkins

/-- The 32-bit word modulus 2^32. -/
def M32 : Nat := 4294967296

/-- Wrapping 32-bit addition. -/
def add32 (x y : Nat) : Nat := (x + y) % M32

/-- Wrapping 32-bit subtraction. -/
def sub32 (x y : Nat) : Nat := (x + M32 - y % M32) % M32

/-- 32-bit XOR. -/
def xor32 (x y : Nat) : Nat := (x ^^^ y) % M32

/-- Modelled from the spec: 32-bit left rotation, `(x << k) | (x >> (32 - k))`
on a 32-bit word. -/
def rot32 (x k : Nat) : Nat := ((x <<< k) % M32) ||| ((x % M32) >>> (32 - k))

/-- Modelled from the spec: the lookup3 `mix` round on the three accumulators.
Each line of the C source `a -= c; a ^= rot(c,4); c += b;` (and its cyclic
variants with rotation amounts 4, 6, 8, 16, 19, 4) is transcribed with the
wrapping operations above. -/
def mix (a b c : Nat) : Nat × Nat × Nat :=
  let a1 := xor32 (sub32 a c) (rot32 c 4)
  let c1 := add32 c b
  let b1 := xor32 (sub32 b a1) (rot32 a1 6)
  let a2 := add32 a1 c1
  let c2 := xor32 (sub32 c1 b1) (rot32 b1 8)
  let b2 := add32 b1 a2
  let a3 := xor32 (sub32 a2 c2) (rot32 c2 16)
  let c3 := add32 c2 b2
  let b3 := xor32 (sub32 b2 a3) (rot32 a3 19)
  let a4 := add32 a3 c3
  let c4 := xor32 (sub32 c3 b3) (rot32 b3 4)
  let b4 := add32 b3 a4
  (a4, b4, c4)

/-- One line of the lookup3 `final` round: `x ^= y; x -= rot(y,k);`. -/
def fstep (x y k : Nat) : Nat := sub32 (xor32 x y) (rot32 y k)

/-- Inverse of `fstep`: `x += rot(y,k); x ^= y;` read backwards. -/
def finv (x y k : Nat) : Nat := xor32 (add32 x (rot32 y k)) y

/-- Modelled from the spec: the lookup3 `final` round, seven `fstep` lines
with rotation amounts 14, 11, 25, 16, 4, 14, 24. -/
def final (a b c : Nat) : Nat × Nat × Nat :=
  let c1 := fstep c b 14
  let a1 := fstep a c1 11
  let b1 := fstep b a1 25
  let c2 := fstep c1 b1 16
  let a2 := fstep a1 c2 4
  let b2 := fstep b1 a2 14
  let c3 := fstep c2 b2 24
  (a2, b2, c3)

/-- Right inverse of `final`, used to show the final mixing pass is a
permutation of accumulator triples. -/
def final_inv (a b c : Nat) : Nat × Nat × Nat :=
  let c2 := finv c b 24
  let b1 := finv b a 14
  let a1 := finv a c2 4
  let c1 := finv c2 b1 16
  let b0 := finv b1 a1 25
  let a0 := finv a1 c1 11
  let c0 := finv c1 b0 14
  (a0, b0, c0)

/-- Little-endian packing of a byte list into a word; each entry is taken
modulo 256, matching the uint8 type of the C byte pointer. -/
def leWord : List Nat → Nat
  | [] => 0
  | b :: rest => b % 256 + 256 * leWord rest

/-- The four little-endian bytes of a 32-bit word. -/
def bytesOfWord (w : Nat) : List Nat :=
  [w % 256, w / 256 % 256, w / 65536 % 256, w / 16777216 % 256]

/-- Modelled from the spec: the block loop of lookup3 `hashlittle`.
While more than 12 bytes remain, the three 4-byte little-endian words of
the next block are added into the accumulators and `mix` is applied.
Returns the accumulators together with the remaining (at most 12) bytes. -/
def jloop : Nat → Nat → Nat → List Nat → Nat × Nat × Nat × List Nat
  | a, b, c, k0 :: k1 :: k2 :: k3 :: k4 :: k5 :: k6 :: k7 :: k8 :: k9 :: k10 :: k11 :: r :: rest =>
    let a1 := add32 a (leWord [k0, k1, k2, k3])
    let b1 := add32 b (leWord [k4, k5, k6, k7])
    let c1 := add32 c (leWord [k8, k9, k10, k11])
    let m := mix a1 b1 c1
    jloop m.1 m.2.1 m.2.2 (r :: rest)
  | a, b, c, rest => (a, b, c, rest)

/-- Modelled from the spec: the tail switch of `hashlittle`. A zero-length
remainder returns `c` directly (case 0 of the C switch); otherwise the
remaining 1..12 bytes are added little-endian into `a`, `b`, `c` (cases 12
down to 1, which fall through) and `final` produces the digest in `c`. -/
def tailDigest : Nat × Nat × Nat × List Nat → Nat
  | (_, _, c, []) => c
  | (a, b, c, rest) =>
    (final (add32 a (leWord (rest.take 4)))
           (add32 b (leWord ((rest.drop 4).take 4)))
           (add32 c (leWord ((rest.drop 8).take 4)))).2.2

/-- Modelled from the spec: lookup3 `hashlittle`. The accumulators start at
`0xdeadbeef + length + seed` wrapped to 32 bits; full 12-byte blocks are
mixed by `jloop` and the remainder is folded in by `tailDigest`. -/
def hashlittle (data : List Nat) (seed : Nat) : Nat :=
  tailDigest (jloop ((3735928559 + data.length + seed) % M32)
                    ((3735928559 + data.length + seed) % M32)
                    ((3735928559 + data.length + seed) % M32) data)

/-- Modelled from the spec: the tail of `hashlittle2`, which returns the
pair `(c, b)` of accumulators as the two 32-bit digest halves. -/
def tailDigest2 : Nat × Nat × Nat × List Nat → Nat × Nat
  | (_, b, c, []) => (c, b)
  | (a, b, c, rest) =>
    let f := final (add32 a (leWord (rest.take 4)))
                   (add32 b (leWord ((rest.drop 4).take 4)))
                   (add32 c (leWord ((rest.drop 8).take 4)))
    (f.2.2, f.2.1)

/-- Modelled from the spec: lookup3 `hashlittle2`, the 64-bit variant taking
two 32-bit seeds; the second seed is added into `c` before the block loop,
and the digest is the pair of 32-bit halves `(c, b)`. -/
def hashlittle2 (data : List Nat) (seed1 seed2 : Nat) : Nat × Nat :=
  tailDigest2 (jloop ((3735928559 + data.length + seed1) % M32)
                     ((3735928559 + data.length + seed1) % M32)
                     (add32 ((3735928559 + data.length + seed1) % M32) seed2) data)

/-- The 32-bit public entry point of the spec. -/
def hash32 (data : List Nat) (seed : Nat) : Nat := hashlittle data seed

/-- The 64-bit public entry point of the spec, as a pair of 32-bit halves. -/
def hash64 (data : List Nat) (seed1 seed2 : Nat) : Nat × Nat :=
  hashlittle2 data seed1 seed2

/-- Modelled from the spec: the single error class of the error taxonomy. -/
inductive HashError
  | invalidArgument
deriving DecidableEq

/-- Modelled from the spec: the opaque streaming state. `accumulating` holds
the seed and the bytes received so far (lookup3 seeds the accumulators with
the total length, so an incremental variant must buffer the input before the
one-shot computation runs at `finalize`); `finalized` is the terminal state. -/
inductive HState
  | accumulating (seed : Nat) (buf : List Nat)
  | finalized
deriving DecidableEq

/-- Modelled from the spec: `init(seed) -> state` enters the accumulating
state with an empty buffer. -/
def init (seed : Nat) : HState := .accumulating seed []

/-- Modelled from the spec: `update(state, chunk) -> state` appends a chunk
to an accumulating state; reuse of a finalized state is a contract violation
and is rejected with `invalidArgument`. -/
def update : HState → List Nat → Except HashError HState
  | .accumulating s buf, chunk => .ok (.accumulating s (buf ++ chunk))
  | .finalized, _ => .error .invalidArgument

/-- Modelled from the spec: `finalize(state) -> digest` computes the digest
of the accumulated bytes and moves to the terminal `finalized` state; reuse
of a finalized state is rejected with `invalidArgument`. -/
def finalize : HState → Except HashError (Nat × HState)
  | .accumulating s buf => .ok (hash32 buf s, .finalized)
  | .finalized => .error .invalidArgument

/-- Run `update` once per chunk, in order, stopping at the first error. -/
def updates : HState → List (List Nat) → Except HashError HState
  | st, [] => .ok st
  | st, c :: cs =>
    match update st c with
    | .ok st1 => updates st1 cs
    | .error e => .error e

/-- The full streaming pipeline: `init`, one `update` per chunk, `finalize`. -/
def hashStream (seed : Nat) (chunks : List (List Nat)) : Except HashError Nat :=
  match updates (init seed) chunks with
  | .ok st => (finalize st).map Prod.fst
  | .error e => .error e

/-- Modelled from the spec: the C call boundary of `hash32`. The caller
passes a possibly null buffer together with a declared length. A null
buffer with nonzero declared length is the contract violation and fails
with `invalidArgument`; a present buffer is read up to the declared length
and always yields a digest. -/
def hash32_call : Option (List Nat) → Nat → Nat → Except HashError Nat
  | none, len, seed => if len = 0 then .ok (hash32 [] seed) else .error .invalidArgument
  | some bs, len, seed => .ok (hash32 (bs.take len) seed)

/-- The operations a caller can invoke against the library. -/
inductive HashOp
  | hashCall (buf : Option (List Nat)) (len : Nat) (seed : Nat)
  | updateCall (chunk : List Nat)
  | finalizeCall

/-- Modelled from the spec: one invocation against the caller-visible state
(the streaming state the caller owns). A call either fully computes and
returns its result, possibly moving the streaming state along the state
machine, or fails leaving the caller-visible state untouched. -/
def invoke : HState → HashOp → HState × Except HashError (Option Nat)
  | st, .hashCall buf len seed =>
    match hash32_call buf len seed with
    | .ok d => (st, .ok (some d))
    | .error e => (st, .error e)
  | st, .updateCall chunk =>
    match update st chunk with
    | .ok st1 => (st1, .ok none)
    | .error e => (st, .error e)
  | st, .finalizeCall =>
    match finalize st with
    | .ok (d, st1) => (st1, .ok (some d))
    | .error e => (st, .error e)

/-- A history of independent `hash32` invocations: each call is mapped to
its digest with no state carried between calls. -/
def runCalls (calls : List (List Nat × Nat)) : List Nat :=
  calls.map fun c => hash32 c.1 c.2

/-- A history of independent `hash64` invocations. -/
def runCalls64 (calls : List (List Nat × Nat × Nat)) : List (Nat × Nat) :=
  calls.map fun c => hash64 c.1 c.2.1 c.2.2

/-- A distutils extension module declaration, as used in `setup.py`. -/
structure Extension where
  name : String
  sources : List String
deriving DecidableEq

/-- The keyword arguments passed to `setup` in `setup.py`; `setup.py`
passes no `py_modules`, so the distribution declares no Python modules. -/
structure SetupArgs where
  name : String
  version : String
  description : String
  ext_modules : List Extension
  py_modules : List String
deriving DecidableEq

/-- `mod = Extension("jenkins", sources=["jenkins.c"])` from `setup.py`. -/
def mod : Extension := ⟨"jenkins", ["jenkins.c"]⟩

/-- The `setup(...)` call of `setup.py`. -/
def setupArgs : SetupArgs :=
  ⟨"Jenkins", "0.33", "Bob Jenkins\x27s hash functions", [mod], []⟩

/-- The files present in the repository: `setup.py` is the only source file. -/
def repoFiles : List String := ["setup.py"]

/-- The extension source file name named by `setup.py`. -/
def jenkinsC : String := "jenkins.c"

theorem M32_pos : 0 < M32 := by unfold M32; omega

theorem M32_eq_two_pow : M32 = 2 ^ 32 := by unfold M32; norm_num

theorem add32_lt (x y : Nat) : add32 x y < M32 := Nat.mod_lt _ M32_pos

theorem sub32_lt (x y : Nat) : sub32 x y < M32 := Nat.mod_lt _ M32_pos

theorem xor32_lt (x y : Nat) : xor32 x y < M32 := Nat.mod_lt _ M32_pos

theorem rot32_lt (x k : Nat) : rot32 x k < M32 := by
  rw [rot32, M32_eq_two_pow]
  apply Nat.or_lt_two_pow
  · rw [← M32_eq_two_pow]; exact Nat.mod_lt _ M32_pos
  · rw [Nat.shiftRight_eq_div_pow]
    exact lt_of_le_of_lt (Nat.div_le_self _ _) (by rw [← M32_eq_two_pow]; exact Nat.mod_lt _ M32_pos)

theorem mix_lt (a b c : Nat) :
    (mix a b c).1 < M32 ∧ (mix a b c).2.1 < M32 ∧ (mix a b c).2.2 < M32 :=
  ⟨add32_lt _ _, add32_lt _ _, xor32_lt _ _⟩

theorem fstep_lt (x y k : Nat) : fstep x y k < M32 := sub32_lt _ _

theorem finv_lt (x y k : Nat) : finv x y k < M32 := xor32_lt _ _

theorem final_lt (a b c : Nat) :
    (final a b c).1 < M32 ∧ (final a b c).2.1 < M32 ∧ (final a b c).2.2 < M32 :=
  ⟨fstep_lt _ _ _, fstep_lt _ _ _, fstep_lt _ _ _⟩

theorem jloop_bound : ∀ (n : Nat) (l : List Nat) (a b c : Nat), l.length ≤ n →
    a < M32 → b < M32 → c < M32 →
    (jloop a b c l).1 < M32 ∧ (jloop a b c l).2.1 < M32 ∧ (jloop a b c l).2.2.1 < M32 := by
  intro n
  induction n with
  | zero =>
    intro l a b c hl ha hb hc
    rcases l with _ | ⟨x, t⟩
    · exact ⟨ha, hb, hc⟩
    · simp at hl
  | succ n ih =>
    intro l a b c hl ha hb hc
    rcases l with _ | ⟨k0, _ | ⟨k1, _ | ⟨k2, _ | ⟨k3, _ | ⟨k4, _ | ⟨k5, _ | ⟨k6, _ | ⟨k7, _ | ⟨k8, _ | ⟨k9, _ | ⟨k10, _ | ⟨k11, _ | ⟨r, rest⟩⟩⟩⟩⟩⟩⟩⟩⟩⟩⟩⟩⟩
    all_goals try exact ⟨ha, hb, hc⟩
    have hlen : (r :: rest).length ≤ n := by
      simp only [List.length_cons] at hl ⊢; omega
    exact ih (r :: rest) _ _ _ hlen (mix_lt _ _ _).1 (mix_lt _ _ _).2.1 (mix_lt _ _ _).2.2

theorem tailDigest_lt (t : Nat × Nat × Nat × List Nat) (h : t.2.2.1 < M32) :
    tailDigest t < M32 := by
  obtain ⟨a, b, c, rest⟩ := t
  cases rest with
  | nil => exact h
  | cons r rs => exact (final_lt _ _ _).2.2

theorem tailDigest2_lt (t : Nat × Nat × Nat × List Nat)
    (hb : t.2.1 < M32) (hc : t.2.2.1 < M32) :
    (tailDigest2 t).1 < M32 ∧ (tailDigest2 t).2 < M32 := by
  obtain ⟨a, b, c, rest⟩ := t
  cases rest with
  | nil => exact ⟨hc, hb⟩
  | cons r rs => exact ⟨(final_lt _ _ _).2.2, (final_lt _ _ _).2.1⟩

theorem hash32_lt (d : List Nat) (s : Nat) : hash32 d s < M32 := by
  unfold hash32 hashlittle
  exact tailDigest_lt _
    (jloop_bound d.length d _ _ _ le_rfl (Nat.mod_lt _ M32_pos) (Nat.mod_lt _ M32_pos)
      (Nat.mod_lt _ M32_pos)).2.2

theorem hash64_lt (d : List Nat) (s1 s2 : Nat) :
    (hash64 d s1 s2).1 < M32 ∧ (hash64 d s1 s2).2 < M32 := by
  unfold hash64 hashlittle2
  have h := jloop_bound d.length d ((3735928559 + d.length + s1) % M32)
    ((3735928559 + d.length + s1) % M32) (add32 ((3735928559 + d.length + s1) % M32) s2)
    le_rfl (Nat.mod_lt _ M32_pos) (Nat.mod_lt _ M32_pos)
    (add32_lt ((3735928559 + d.length + s1) % M32) s2)
  exact tailDigest2_lt _ h.2.1 h.2.2

theorem xor32_xor32 (z y : Nat) (hz : z < M32) (hy : y < M32) :
    xor32 (xor32 z y) y = z := by
  unfold xor32
  rw [M32_eq_two_pow] at hz hy ⊢
  rw [Nat.mod_eq_of_lt (Nat.xor_lt_two_pow hz hy),
    Nat.xor_cancel_right, Nat.mod_eq_of_lt hz]

theorem fstep_finv (x y k : Nat) (hx : x < M32) (hy : y < M32) :
    fstep (finv x y k) y k = x := by
  unfold fstep finv
  rw [xor32_xor32 _ _ (add32_lt _ _) hy]
  have hr := rot32_lt y k
  unfold add32 sub32 M32 at *
  omega

theorem final_inv_lt (a b c : Nat) :
    (final_inv a b c).1 < M32 ∧ (final_inv a b c).2.1 < M32 ∧ (final_inv a b c).2.2 < M32 :=
  ⟨finv_lt _ _ _, finv_lt _ _ _, finv_lt _ _ _⟩

theorem final_final_inv (a b c : Nat) (ha : a < M32) (hb : b < M32) (hc : c < M32) :
    final (final_inv a b c).1 (final_inv a b c).2.1 (final_inv a b c).2.2 = (a, b, c) := by
  simp only [final, final_inv]
  rw [fstep_finv _ _ _ (finv_lt _ _ _) (finv_lt _ _ _)]
  rw [fstep_finv _ _ _ (finv_lt _ _ _) (finv_lt _ _ _)]
  rw [fstep_finv _ _ _ (finv_lt _ _ _) (finv_lt _ _ _)]
  rw [fstep_finv _ _ _ (finv_lt _ _ _) (finv_lt _ _ _)]
  rw [fstep_finv _ _ _ ha (finv_lt _ _ _)]
  rw [fstep_finv _ _ _ hb ha]
  rw [fstep_finv _ _ _ hc hb]

theorem leWord_word (w : Nat) (h : w < M32) :
    leWord [w % 256, w / 256 % 256, w / 65536 % 256, w / 16777216 % 256] = w := by
  unfold M32 at h
  simp only [leWord]
  omega

theorem add32_sub32_cancel (x a : Nat) (ha : a < M32) : add32 x (sub32 a x) = a := by
  unfold add32 sub32 M32 at *
  omega

theorem hash32_twelve (k0 k1 k2 k3 k4 k5 k6 k7 k8 k9 k10 k11 s : Nat) :
    hash32 [k0, k1, k2, k3, k4, k5, k6, k7, k8, k9, k10, k11] s =
      (final (add32 ((3735928559 + 12 + s) % M32) (leWord [k0, k1, k2, k3]))
             (add32 ((3735928559 + 12 + s) % M32) (leWord [k4, k5, k6, k7]))
             (add32 ((3735928559 + 12 + s) % M32) (leWord [k8, k9, k10, k11]))).2.2 := rfl

theorem hash32_surjective (s v : Nat) (hv : v < M32) :
    ∃ d : List Nat, hash32 d s = v := by
  refine ⟨bytesOfWord (sub32 (final_inv 0 0 v).1 ((3735928559 + 12 + s) % M32)) ++
          bytesOfWord (sub32 (final_inv 0 0 v).2.1 ((3735928559 + 12 + s) % M32)) ++
          bytesOfWord (sub32 (final_inv 0 0 v).2.2 ((3735928559 + 12 + s) % M32)), ?_⟩
  simp only [bytesOfWord, List.cons_append, List.nil_append]
  rw [hash32_twelve]
  rw [leWord_word _ (sub32_lt _ _), leWord_word _ (sub32_lt _ _), leWord_word _ (sub32_lt _ _)]
  rw [add32_sub32_cancel _ _ (final_inv_lt 0 0 v).1,
    add32_sub32_cancel _ _ (final_inv_lt 0 0 v).2.1,
    add32_sub32_cancel _ _ (final_inv_lt 0 0 v).2.2]
  rw [final_final_inv 0 0 v M32_pos M32_pos hv]

theorem updates_acc (chunks : List (List Nat)) : ∀ s buf,
    updates (.accumulating s buf) chunks = .ok (.accumulating s (buf ++ chunks.flatten)) := by
  induction chunks with
  | nil => intro s buf; simp [updates]
  | cons c cs ih => intro s buf; simp [updates, update, ih, List.append_assoc]

end Jenkins

/-- C1: hash32 is deterministic — the digest of a call on `(d, s)` is a pure
function of the input bytes and the seed: whatever histories of prior calls
`h1` and `h2` precede it, the call yields `hash32 d s`, so two calls yield
the identical uint32 digest independent of execution history. -/
theorem Jenkins.hash32_deterministic (d : List Nat) (s : Nat)
    (h1 h2 : List (List Nat × Nat)) :
    (Jenkins.runCalls (h1 ++ [(d, s)]))[h1.length]? = some (Jenkins.hash32 d s) ∧
    (Jenkins.runCalls (h1 ++ [(d, s)]))[h1.length]? =
      (Jenkins.runCalls (h2 ++ [(d, s)]))[h2.length]? := by
  constructor
  · rw [Jenkins.runCalls, List.getElem?_map, List.getElem?_concat_length]; rfl
  · rw [Jenkins.runCalls, Jenkins.runCalls, List.getElem?_map, List.getElem?_map,
      List.getElem?_concat_length, List.getElem?_concat_length]

/-- C2: streaming equivalence — for every seed and every way of splitting a
byte sequence into chunks, `init`, then one `update` per chunk in order,
then `finalize`, succeeds and yields exactly the digest of the single call
`hash32` on the concatenation of the chunks. -/
theorem Jenkins.streaming_equivalence (s : Nat) (chunks : List (List Nat)) :
    Jenkins.hashStream s chunks = .ok (Jenkins.hash32 chunks.flatten s) := by
  rw [Jenkins.hashStream, Jenkins.init, Jenkins.updates_acc chunks s []]
  rfl

/-- C3: all internal mixing arithmetic wraps modulo 2^32 — the wrapping
addition, subtraction, XOR and rotation always produce a value below
`M32 = 2^32`, the `mix` and `final` rounds keep all three accumulators below
2^32, and the digests returned by `hash32` and `hash64` (both 32-bit halves)
are the values computed under this wraparound semantics, hence below 2^32. -/
theorem Jenkins.wraparound_arithmetic :
    (∀ x y, Jenkins.add32 x y < Jenkins.M32) ∧
    (∀ x y, Jenkins.sub32 x y < Jenkins.M32) ∧
    (∀ x y, Jenkins.xor32 x y < Jenkins.M32) ∧
    (∀ x k, Jenkins.rot32 x k < Jenkins.M32) ∧
    (∀ a b c, (Jenkins.mix a b c).1 < Jenkins.M32 ∧
      (Jenkins.mix a b c).2.1 < Jenkins.M32 ∧ (Jenkins.mix a b c).2.2 < Jenkins.M32) ∧
    (∀ a b c, (Jenkins.final a b c).1 < Jenkins.M32 ∧
      (Jenkins.final a b c).2.1 < Jenkins.M32 ∧ (Jenkins.final a b c).2.2 < Jenkins.M32) ∧
    (∀ d s, Jenkins.hash32 d s < Jenkins.M32) ∧
    (∀ d s1 s2, (Jenkins.hash64 d s1 s2).1 < Jenkins.M32 ∧
      (Jenkins.hash64 d s1 s2).2 < Jenkins.M32) ∧
    Jenkins.M32 = 2 ^ 32 :=
  ⟨Jenkins.add32_lt, Jenkins.sub32_lt, Jenkins.xor32_lt, Jenkins.rot32_lt,
    Jenkins.mix_lt, Jenkins.final_lt, Jenkins.hash32_lt, Jenkins.hash64_lt,
    Jenkins.M32_eq_two_pow⟩

/-- C5: hash32 fails exactly on contract violations — the call boundary
errors if and only if the buffer is null with nonzero declared length, any
present buffer always yields a digest, the streaming operations error if and
only if they are applied to a finalized state, and `invalidArgument` is the
only error class. -/
theorem Jenkins.error_conditions :
    (∀ buf len seed e, Jenkins.hash32_call buf len seed = .error e ↔
      (buf = none ∧ len ≠ 0 ∧ e = .invalidArgument)) ∧
    (∀ bs len seed, ∃ d, Jenkins.hash32_call (some bs) len seed = .ok d) ∧
    (∀ st chunk e, Jenkins.update st chunk = .error e ↔
      (st = .finalized ∧ e = .invalidArgument)) ∧
    (∀ st e, Jenkins.finalize st = .error e ↔
      (st = .finalized ∧ e = .invalidArgument)) ∧
    (∀ e : Jenkins.HashError, e = .invalidArgument) := by
  refine ⟨?_, ?_, ?_, ?_, ?_⟩
  · intro buf len seed e
    cases buf with
    | none =>
      by_cases h : len = 0 <;> cases e <;> simp [Jenkins.hash32_call, h]
    | some bs =>
      cases e
      simp [Jenkins.hash32_call]
  · intro bs len seed
    exact ⟨Jenkins.hash32 (bs.take len) seed, rfl⟩
  · intro st chunk e
    cases st <;> cases e <;> simp [Jenkins.update]
  · intro st e
    cases st <;> cases e <;> simp [Jenkins.finalize]
  · intro e
    cases e
    rfl

/-- C6: atomicity — every invocation against the caller-visible state either
fully computes and returns an ok result (a digest for hashing or finalizing
calls, a state transition for update), or fails, and in the failure case the
caller-visible state is returned exactly unchanged; no third, partial
outcome exists. -/
theorem Jenkins.call_atomicity (st : Jenkins.HState) (op : Jenkins.HashOp) :
    (∃ r st1, Jenkins.invoke st op = (st1, .ok r)) ∨
    (∃ e, Jenkins.invoke st op = (st, .error e)) := by
  cases op with
  | hashCall buf len seed =>
    cases buf with
    | none =>
      by_cases h : len = 0
      · left; exact ⟨some (Jenkins.hash32 [] seed), st, by simp [Jenkins.invoke, Jenkins.hash32_call, h]⟩
      · right; exact ⟨.invalidArgument, by simp [Jenkins.invoke, Jenkins.hash32_call, h]⟩
    | some bs => left; exact ⟨some (Jenkins.hash32 (bs.take len) seed), st, rfl⟩
  | updateCall chunk =>
    cases st with
    | accumulating s buf => left; exact ⟨none, .accumulating s (buf ++ chunk), rfl⟩
    | finalized => right; exact ⟨.invalidArgument, rfl⟩
  | finalizeCall =>
    cases st with
    | accumulating s buf => left; exact ⟨some (Jenkins.hash32 buf s), .finalized, rfl⟩
    | finalized => right; exact ⟨.invalidArgument, rfl⟩

/-- C7: the streaming API is a three-state machine — `init` enters the
accumulating state, `update` self-loops on accumulating states, `finalize`
moves an accumulating state to the terminal finalized state, and both
`update` and `finalize` on a finalized state are rejected with the
`invalidArgument` contract violation rather than producing any transition
out of the finalized state. -/
theorem Jenkins.streaming_state_machine :
    (∀ s, Jenkins.init s = .accumulating s []) ∧
    (∀ s buf chunk, Jenkins.update (.accumulating s buf) chunk =
      .ok (.accumulating s (buf ++ chunk))) ∧
    (∀ s buf, Jenkins.finalize (.accumulating s buf) =
      .ok (Jenkins.hash32 buf s, .finalized)) ∧
    (∀ chunk, Jenkins.update .finalized chunk = .error .invalidArgument) ∧
    Jenkins.finalize .finalized = .error .invalidArgument :=
  ⟨fun _ => rfl, fun _ _ _ => rfl, fun _ _ => rfl, fun _ => rfl, rfl⟩

/-- C8: seed separation — no seed collapses hash32 to a constant function:
for every seed there are two byte sequences with different digests (in fact
the 12-byte inputs alone are mapped onto every 32-bit value, since the final
mixing pass is a permutation of accumulator triples). -/
theorem Jenkins.seed_no_constant_collapse (s : Nat) :
    ∃ d1 d2 : List Nat, Jenkins.hash32 d1 s ≠ Jenkins.hash32 d2 s := by
  obtain ⟨d1, h1⟩ := Jenkins.hash32_surjective s 0 Jenkins.M32_pos
  obtain ⟨d2, h2⟩ := Jenkins.hash32_surjective s 1 (by unfold Jenkins.M32; omega)
  exact ⟨d1, d2, by rw [h1, h2]; omega⟩

/-- C9: no state survives across invocations — in any history of calls, the
result of each `hash32` or `hash64` invocation is exactly the pure function
of that invocation's own arguments, uninfluenced by the other calls of the
history. -/
theorem Jenkins.no_cross_call_state :
    (∀ (calls : List (List Nat × Nat)) (i : Nat),
      (Jenkins.runCalls calls)[i]? =
        (calls[i]?).map fun c => Jenkins.hash32 c.1 c.2) ∧
    (∀ (calls : List (List Nat × Nat × Nat)) (i : Nat),
      (Jenkins.runCalls64 calls)[i]? =
        (calls[i]?).map fun c => Jenkins.hash64 c.1 c.2.1 c.2.2) :=
  ⟨fun calls i => List.getElem?_map _ calls i,
   fun calls i => List.getElem?_map _ calls i⟩

/-- C10: the build configuration declares the distribution "Jenkins" version
"0.33" with exactly one extension module named "jenkins" compiled from the
single source "jenkins.c", which is not among the repository files, and no
Python modules. -/
theorem Jenkins.packaging_single_extension :
    Jenkins.setupArgs.ext_modules = [Jenkins.mod] ∧
    Jenkins.mod.name = "jenkins" ∧
    Jenkins.mod.sources = [Jenkins.jenkinsC] ∧
    Jenkins.jenkinsC = "jenkins.c" ∧
    Jenkins.setupArgs.py_modules = [] ∧
    Jenkins.setupArgs.name = "Jenkins" ∧
    Jenkins.setupArgs.version = "0.33" ∧
    (Jenkins.jenkinsC ∈ Jenkins.repoFiles ↔ False) := by
  refine ⟨rfl, rfl, rfl, rfl, rfl, rfl, rfl, ?_⟩
  simp [Jenkins.repoFiles, Jenkins.jenkinsC]

/-- C4: hash32 accepts the empty input and maps it, with seed 0, to the fixed
reference constant 0xdeadbeef = 3735928559, the documented lookup3 digest for
zero-length input and zero seed, identically on every call. -/
theorem Jenkins.empty_input_digest : Jenkins.hash32 [] 0 = 3735928559 := rfl
